import Mathlib

/-!
Verification development for the bunnyctl storage library.

Shallow embedding conventions:
* JavaScript strings are modelled as lists of characters (`Str`).
* `Uint8Array` values are modelled as `List Nat`, with side conditions
  `x < 256` where byte-ness matters.
* SHA-256 (computed by the runtime's `crypto.subtle.digest` /
  `computeChecksum`, which is not part of this repository) is modelled as
  an explicit function parameter `hash : List Nat -> List Nat`.
* Fallible code returns `Except JsError`; `undefined` results are `Option`.
-/

namespace Bunny

/-- JavaScript strings, modelled as lists of characters. -/
abbrev Str := List Char

/-- `s.endsWith("/")` on a JS string: true iff the last character is '/'.
    (The empty string does not end with "/".) -/
def endsWithSlash (s : Str) : Bool :=
  s.getLast? = some '/'

/-- Errors thrown by the embedded code. -/
inductive JsError where
  /-- `fs.stat` on a missing path. -/
  | enoent : JsError
  /-- `fs.readFile` on a directory. -/
  | eisdir : JsError
  /-- `fs.readdir` on a non-directory. -/
  | enotdir : JsError
  /-- property access on `undefined`. -/
  | typeError : JsError
  /-- "Remote file '<path>' exists, but 'overwrite' not specified". -/
  | overwriteRequired (path : Str) : JsError
  /-- "Local path '<path>' is a directory, but 'recursive' not specified". -/
  | recursiveRequired (path : Str) : JsError
  /-- "Unknown local path kind, neither file nor directory". -/
  | unknownPathKind : JsError
  /-- "Checksum mismatch: expected ..., received ..." (post-upload verify). -/
  | checksumMismatch (path : Str) : JsError
  /-- "File expected, '<path>' received" (maybeDescribe on a "/" path). -/
  | fileExpected (path : Str) : JsError
  /-- "Cannot upload directory '<path>'; file expected". -/
  | uploadDirectoryPath (path : Str) : JsError
  /-- "File <path> not found" (describe on an absent path). -/
  | notFound (path : Str) : JsError
  /-- "Mismatch between directory flag and presence of checksum". -/
  | checksumPresenceMismatch : JsError
  /-- "Expected parent path '<path>' to end with /". -/
  | parentPathNotSlashTerminated (path : Str) : JsError
deriving DecidableEq

/-! ## util.ts -/

/-- A single hexadecimal digit of a JS string, as understood by
    `parseInt(-, 16)`: '0'-'9', 'a'-'f', 'A'-'F'. -/
def hexDigit? (c : Char) : Option Nat :=
  if 48 ≤ c.toNat ∧ c.toNat ≤ 57 then some (c.toNat - 48)
  else if 97 ≤ c.toNat ∧ c.toNat ≤ 102 then some (c.toNat - 87)
  else if 65 ≤ c.toNat ∧ c.toNat ≤ 70 then some (c.toNat - 55)
  else none

/-- JS `parseInt(s, 16)`: parses the maximal leading run of hex digits and
    returns NaN (`none`) if there is none.  (Leading whitespace and sign
    handling of the real builtin are irrelevant for the two-character
    slices the decoder feeds it and are not modelled.) -/
def parseIntHex (s : Str) : Option Nat :=
  let digits := s.takeWhile (fun c => (hexDigit? c).isSome)
  if digits.isEmpty then none
  else some (digits.foldl (fun acc c => acc * 16 + (hexDigit? c).getD 0) 0)

/-- The loop of `hexDecoder` (util.ts): decode two characters at a time via
    `parseInt(hex.slice(i, i + 2), 16)`, failing on NaN. -/
def hexPairsDecode : Str → Option (List Nat)
  | [] => some []
  | [_] => none
  | c1 :: c2 :: rest =>
    match parseIntHex [c1, c2], hexPairsDecode rest with
    | some b, some bs => some (b :: bs)
    | _, _ => none

/-- `hexToArray` (util.ts): `decode(hexDecoder, hex)`.  `hexDecoder` fails
    ("Malformed digest") on the empty string and on odd-length strings,
    then decodes two characters at a time. -/
def hexToArray (s : Str) : Option (List Nat) :=
  if s.length = 0 ∨ s.length % 2 ≠ 0 then none
  else hexPairsDecode s

/-- `b.toString(16).padStart(2, "0")` for one array element. -/
def byteToHexChars (b : Nat) : Str :=
  let s := Nat.toDigits 16 b
  List.replicate (2 - s.length) '0' ++ s

/-- `arrayToHex` (util.ts): map each byte to its zero-padded lowercase hex
    representation and concatenate. -/
def arrayToHex (a : List Nat) : Str :=
  a.flatMap byteToHexChars

/-- Canonical (lowercase) form of a hex digit character; other characters
    are left alone.  This is the case normalization of the round-trip
    property: `arrayToHex` always emits canonical digits. -/
def toLowerHex (c : Char) : Char :=
  match hexDigit? c with
  | some d => Nat.digitChar d
  | none => c

/-- `arrayEquals` (util.ts): length check, then element-wise comparison. -/
def arrayEquals (expected actual : List Nat) : Bool :=
  expected.length == actual.length &&
    (actual.zip expected).all (fun p => p.1 == p.2)

/-- First-occurrence deduplication: the element sequence of `new Set(l)`
    (JS sets iterate in insertion order). -/
def dedupFirst : List Str → List Str
  | [] => []
  | x :: xs => x :: (dedupFirst xs).filter (fun y => y ≠ x)

/-- The loop of `arrayDiff` (util.ts): walk the deduplicated left list;
    matched elements are moved to `both` and removed from the right set,
    unmatched ones go to `onlyLeft`.  Returns
    `(onlyLeft, both, remaining right set)`. -/
def arrayDiffLoop : List Str → List Str → List Str × List Str × List Str
  | [], rs => ([], [], rs)
  | l :: ls, rs =>
    if l ∈ rs then
      let (ol, b, rs') := arrayDiffLoop ls (rs.erase l)
      (ol, l :: b, rs')
    else
      let (ol, b, rs') := arrayDiffLoop ls rs
      (l :: ol, b, rs')

/-- Result record of `arrayDiff`. -/
structure ArrayDiffResult where
  onlyLeft : List Str
  onlyRight : List Str
  both : List Str
deriving DecidableEq

/-- `arrayDiff` (util.ts): build sets from both lists, partition the left
    set against the right set, and report the leftover right set as
    `onlyRight`. -/
def arrayDiff (left right : List Str) : ArrayDiffResult :=
  let leftSet := dedupFirst left
  let rightSet := dedupFirst right
  let (onlyLeft, both, rest) := arrayDiffLoop leftSet rightSet
  ⟨onlyLeft, rest, both⟩

/-- `coalesce` (util.ts): `array.filter(t => t)` over `(T | undefined)[]`
    where `T` is an object type (objects are always truthy). -/
def coalesce {T : Type} (array : List (Option T)) : List T :=
  array.filterMap id

/-! ## util/tree.ts -/

/-- `Tree<T>`: a value plus an ordered list of child trees. -/
inductive Tree (T : Type) where
  | node (value : T) (children : List (Tree T))

/-- The `value` field of a `Tree`. -/
def Tree.value {T : Type} : Tree T → T
  | .node v _ => v

/-- The `children` field of a `Tree`. -/
def Tree.children {T : Type} : Tree T → List (Tree T)
  | .node _ cs => cs

/-! ## storage-algorithms.ts : data model -/

/-- `DifferenceType`. -/
inductive DifferenceType where
  | contents | type | onlyLocal | onlyRemote
deriving DecidableEq

/-- `Difference`: one node of divergence.  All three fields are optional
    (JS `undefined` when not supplied to the constructor). -/
structure Difference where
  localPath : Option Str
  remotePath : Option Str
  type : Option DifferenceType
deriving DecidableEq

/-- `PathDifference = Tree<Difference>`. -/
abbrev PathDifference := Tree Difference

/-! ## Local filesystem model

The local side is reached through `fs.stat`, `fs.readFile` and
`fs.readdir`.  A directory entry pairs a name with a node; `other` stands
for a path whose stat succeeds but which is neither a regular file nor a
directory (socket, device, ...). -/

/-- A node of the local filesystem. -/
inductive FSNode where
  | file (content : List Nat)
  | dir (entries : List (Str × FSNode))
  | other

/-- `fs.readFile`: contents of a regular file, `EISDIR` on a directory
    (and on other non-file kinds, whose exact errno does not matter). -/
def jsReadFile : FSNode → Except JsError (List Nat)
  | .file content => .ok content
  | _ => .error .eisdir

/-- `fs.readdir`: the list of entry names of a directory, `ENOTDIR`
    otherwise. -/
def jsReaddir : FSNode → Except JsError (List Str)
  | .dir entries => .ok (entries.map Prod.fst)
  | _ => .error .enotdir

/-- Resolving one more path component locally: `fs.stat(path.join(lp, n))`
    reaches the first directory entry named `n` (`none` = ENOENT). -/
def lookupLocal (entries : List (Str × FSNode)) (n : Str) : Option FSNode :=
  (entries.find? (fun e => e.1 = n)).map Prod.snd

/-- `path.join(a, b)` for a plain name `b` (no normalization needed). -/
def pathJoin (a b : Str) : Str :=
  a ++ '/' :: b

/-! ## Remote entry model for the diff engine

A `BunnyEntry` as the diff engine consumes it: a file carries its
checksum; a directory carries the one-level listing that its `list()`
method returns.  `name` is the `ObjectName`, `path` the zone-relative
full path. -/

/-- Remote entry (file with checksum, or directory with its listing). -/
inductive RemoteEntry where
  | file (name : Str) (path : Str) (checksum : List Nat)
  | dir (name : Str) (path : Str) (entries : List RemoteEntry)

/-- The `name` (`ObjectName`) of a remote entry. -/
def RemoteEntry.name : RemoteEntry → Str
  | .file n _ _ => n
  | .dir n _ _ => n

/-- `remoteEntriesDict[name]`: JS object property assignment is
    last-wins, so the lookup finds the last listing entry with the
    given name. -/
def findLastEntry (entries : List RemoteEntry) (n : Str) : Option RemoteEntry :=
  entries.reverse.find? (fun e => e.name = n)

/-- `Object.keys(remoteEntriesDict)`: one key per distinct name, in first
    insertion order.  (The JS reordering of integer-like keys is not
    modelled; it permutes the key list but never changes its membership,
    and no property proved below depends on the relative order of
    distinct remote names.) -/
def jsObjectKeys (names : List Str) : List Str :=
  dedupFirst names

/-- In the source, `diffFiles` tests `!stat.isFile` and `diffDirectories`
    tests `!stat.isDirectory` — method references, not calls.  A JS
    function object is always truthy, so both tests are constantly
    false and the `type`-difference branches they guard are dead. -/
def statIsFileRef : Bool := true

/-- See `statIsFileRef`. -/
def statIsDirectoryRef : Bool := true

/-- `diffFiles(localPath, remoteFile)` (storage-algorithms.ts 133-148).
    `localNode` is what `fs.stat`/`fs.readFile` find at `localPath`
    (`none` = ENOENT). `remotePath`/`remoteChecksum` are the fields of
    `remoteFile`.  Returns `none` for "no difference" (the function
    falls off its end, returning `undefined`). -/
def diffFiles (hash : List Nat → List Nat) (localPath : Str)
    (localNode : Option FSNode) (remotePath : Str)
    (remoteChecksum : List Nat) : Except JsError (Option PathDifference) :=
  match localNode with
  | none => .error .enoent
  | some node =>
    if !statIsFileRef then
      .ok (some (.node ⟨some localPath, some remotePath, some .type⟩ []))
    else
      match jsReadFile node with
      | .error e => .error e
      | .ok localFile =>
        let localChecksum := hash localFile
        if !(arrayEquals remoteChecksum localChecksum) then
          .ok (some (.node ⟨some localPath, some remotePath, some .contents⟩ []))
        else
          .ok none

mutual

/-- `diffPaths(localPath, remote, recursive)` (storage-algorithms.ts
    199-207): dispatch on the remote entry kind. -/
def diffPaths (hash : List Nat → List Nat) (localPath : Str)
    (localNode : Option FSNode) (remote : RemoteEntry)
    (recursive : Bool) : Except JsError (Option PathDifference) :=
  match remote with
  | .file _ p ck => diffFiles hash localPath localNode p ck
  | .dir _ p entries => diffDirectories hash localPath localNode p entries recursive
termination_by (sizeOf remote, 0)
decreasing_by
  apply Prod.Lex.left
  rename_i pth ents
  simp only [RemoteEntry.dir.sizeOf_spec]
  have h1 : 0 < sizeOf pth := by cases pth <;> simp_arith
  omega

/-- `diffDirectories(localPath, remoteDirectory, recursive)`
    (storage-algorithms.ts 150-197).  `remotePath` is
    `remoteDirectory.path` and `rentries` the listing that
    `remoteDirectory.list()` returns. -/
def diffDirectories (hash : List Nat → List Nat) (localPath : Str)
    (localNode : Option FSNode) (remotePath : Str)
    (rentries : List RemoteEntry) (recursive : Bool) :
    Except JsError (Option PathDifference) :=
  match localNode with
  | none => .error .enoent
  | some node =>
    if !statIsDirectoryRef then
      .ok (some (.node ⟨some localPath, some remotePath, some .type⟩ []))
    else
      -- remoteEntries = await remoteDirectory.list()
      let keys := jsObjectKeys (rentries.map RemoteEntry.name)
      match node with
      | .dir les =>
        let d := arrayDiff (les.map Prod.fst) keys
        match (if recursive then
                 (diffBoth hash localPath les rentries d.both).map coalesce
               else .ok []) with
        | .error e => .error e
        | .ok children =>
          if d.onlyLeft.length > 0 ∨ d.onlyRight.length > 0 ∨
              children.length > 0 then
            .ok (some (.node ⟨some localPath, some remotePath, none⟩
              (d.onlyLeft.map (fun l => .node ⟨some l, none, some .onlyLocal⟩ []) ++
               d.onlyRight.map (fun r => .node ⟨none, some r, some .onlyRemote⟩ []) ++
               children)))
          else
            .ok none
      | _ => .error .enotdir  -- fs.readdir on a non-directory
termination_by (sizeOf rentries + 1, 0)
decreasing_by
  apply Prod.Lex.left
  omega

/-- The `both.map(name => diffPaths(path.join(localPath, name),
    remoteEntriesDict[name], true))` fan-out, in request order. -/
def diffBoth (hash : List Nat → List Nat) (localPath : Str)
    (les : List (Str × FSNode)) (rentries : List RemoteEntry) :
    List Str → Except JsError (List (Option PathDifference))
  | [] => .ok []
  | n :: rest =>
    match h : findLastEntry rentries n with
    | none => .error .typeError  -- remoteEntriesDict[name] is undefined
    | some e =>
      match diffPaths hash (pathJoin localPath n) (lookupLocal les n) e true with
      | .error err => .error err
      | .ok d =>
        match diffBoth hash localPath les rentries rest with
        | .error err => .error err
        | .ok ds => .ok (d :: ds)
termination_by both => (sizeOf rentries, both.length)
decreasing_by
  · apply Prod.Lex.left
    have hm : e ∈ rentries.reverse := List.mem_of_find?_eq_some h
    exact List.sizeOf_lt_of_mem (List.mem_reverse.mp hm)
  · apply Prod.Lex.right
    simp

end

/-! ## Entry model (storage.ts 104-119 / test/util.ts 124-141)

`AbstractBunnyEntry`'s constructor enforces the two invariants checked by
claim C9.  The marker symbols `bunnyFileEntry` / `bunnyDirectoryEntry`
become the two-variant `BunnyType`. -/

/-- The `type` marker of an entry. -/
inductive BunnyType where
  | file | dir
deriving DecidableEq

/-- The fields of a constructed `AbstractBunnyEntry` (the newer variant:
    `parentPath` + `name`; `path` is the derived getter
    `parentPath + name`).  `checksum` is `none` when the JS value is
    `undefined`/`null`. -/
structure AbstractBunnyEntry where
  type : BunnyType
  parentPath : Str
  name : Str
  length : Nat
  checksum : Option (List Nat)
deriving DecidableEq

/-- The `path` getter: `parentPath + name`. -/
def AbstractBunnyEntry.path (e : AbstractBunnyEntry) : Str :=
  e.parentPath ++ e.name

/-- The `AbstractBunnyEntry` constructor:
    `if ((type == bunnyDirectoryEntry) != !checksum) throw ...;`
    `if (!parentPath.endsWith("/")) throw ...` -/
def mkEntry (type : BunnyType) (parentPath name : Str) (length : Nat)
    (checksum : Option (List Nat)) : Except JsError AbstractBunnyEntry :=
  if (decide (type = BunnyType.dir)) != checksum.isNone then
    .error .checksumPresenceMismatch
  else if !(endsWithSlash parentPath) then
    .error (.parentPathNotSlashTerminated parentPath)
  else
    .ok ⟨type, parentPath, name, length, checksum⟩

/-! ## node:path/posix parse (used by BunnyStorage.cd)

Only the `dir` and `base` fields of `p.parse(path)` are consumed.  The
model follows Node's scan: skip trailing separators, take the last
non-empty component as `base`, and everything before its separator as
`dir` (the root `/` when the component starts at the root, the empty
string when there is no separator at all). -/

/-- `p.parse(path)` restricted to `(dir, base)`. -/
def posixParseDirBase (s : Str) : Str × Str :=
  match s with
  | [] => ([], [])
  | c :: rest0 =>
    let isAbs := c = '/'
    let body := if isAbs then rest0 else s
    let root : Str := if isAbs then ['/'] else []
    let trimmedRev := body.reverse.dropWhile (fun x => x = '/')
    if trimmedRev.isEmpty then
      (root, [])
    else
      let baseRev := trimmedRev.takeWhile (fun x => x ≠ '/')
      let base := baseRev.reverse
      if baseRev.length = trimmedRev.length then
        (root, base)
      else
        let startPart :=
          (if isAbs then 1 else 0) + trimmedRev.length - base.length
        (s.take (startPart - 1), base)

/-- The `dir` variable of `BunnyStorage.cd`: the parsed directory part,
    made separator-terminated. -/
def cdDir (path : Str) : Str :=
  let parsed := posixParseDirBase path
  if !(endsWithSlash parsed.1) then parsed.1 ++ ['/'] else parsed.1

/-- `BunnyStorage.cd(path)` (test/util.ts 339-352): parse the path, make
    the `dir` part separator-terminated, and construct a directory entry
    (no remote call).  Returns the constructor's result. -/
def cd (path : Str) : Except JsError AbstractBunnyEntry :=
  mkEntry .dir (cdDir path) (posixParseDirBase path).2 0 none

/-! ## Remote storage model for the sync engine

The store is an association list from full remote path to blob contents;
the server is honest: `describe` after an upload reports the stored
bytes' length and checksum.  `SFileEntry` is the slice of a described
`BunnyFileEntry` that the sync engine consumes (the decoded
`parentPath`/`name` split is irrelevant to it and elided). -/

/-- A described remote file as the sync engine sees it. -/
structure SFileEntry where
  path : Str
  length : Nat
  checksum : List Nat
deriving DecidableEq

/-- Remote store state: full path ↦ contents, latest write first. -/
structure RemoteState where
  files : List (Str × List Nat)
deriving DecidableEq

/-- Association-list lookup (first match wins; `put` prepends). -/
def assocLookup : List (Str × List Nat) → Str → Option (List Nat)
  | [], _ => none
  | (k, v) :: rest, p => if k = p then some v else assocLookup rest p

/-- Contents stored at `p`, if any. -/
def RemoteState.lookup (st : RemoteState) (p : Str) : Option (List Nat) :=
  assocLookup st.files p

/-- Effect of a PUT: `p` now maps to `body`. -/
def RemoteState.put (st : RemoteState) (p : Str) (body : List Nat) :
    RemoteState :=
  ⟨(p, body) :: st.files⟩

/-- Observable remote side effects of the sync engine: one
    `uploadTransfer` per PUT issued, one `progress` per invocation of the
    progress callback (carrying the entry passed to it and the `changed`
    flag). -/
inductive SyncEvent where
  | uploadTransfer (path : Str)
  | progress (entry : SFileEntry) (changed : Bool)
deriving DecidableEq

/-- `BunnyStorage.maybeDescribe(path)` (test/util.ts 320-337): throws on a
    separator-terminated path, returns `undefined` (`none`) on 404,
    otherwise the decoded entry. -/
def maybeDescribe (hash : List Nat → List Nat) (st : RemoteState)
    (p : Str) : Except JsError (Option SFileEntry) :=
  if endsWithSlash p then .error (.fileExpected p)
  else .ok ((st.lookup p).map (fun c => ⟨p, c.length, hash c⟩))

/-- The caller-side verification inside `BunnyStorage.upload`
    (test/util.ts 288-308), parametrized by the entry the server
    describes after the transfer: reject separator-terminated paths,
    default the checksum to the locally computed one, and fail with
    Checksum-Mismatch unless the described entry carries exactly the
    checksum that was sent. -/
def storageUploadWith (hash : List Nat → List Nat) (p : Str)
    (body : List Nat) (checksum? : Option (List Nat))
    (described : SFileEntry) : Except JsError SFileEntry :=
  if endsWithSlash p then .error (.uploadDirectoryPath p)
  -- `if (!checksum) checksum = await computeChecksum(body)`:
  -- the sent checksum defaults to the digest of the body
  else if arrayEquals (checksum?.getD (hash body)) described.checksum then
    .ok described
  else .error (.checksumMismatch p)

/-- `BunnyStorage.upload` against the modelled store: the PUT stores the
    body, the follow-up describe reports it, and the checksum
    verification of `storageUploadWith` runs on that description.  The
    event list records the PUT (even when the verification then
    fails). -/
def RemoteState.upload (hash : List Nat → List Nat) (st : RemoteState)
    (p : Str) (body : List Nat) (checksum? : Option (List Nat)) :
    Except JsError (SFileEntry × RemoteState) × List SyncEvent :=
  if endsWithSlash p then (.error (.uploadDirectoryPath p), [])
  else
    let st' := st.put p body
    let described : SFileEntry := ⟨p, body.length, hash body⟩
    match storageUploadWith hash p body checksum? described with
    | .ok e => (.ok (e, st'), [.uploadTransfer p])
    | .error err => (.error err, [.uploadTransfer p])

/-! ## Sync engine (storage-algorithms.ts 220-308) -/

/-- `uploadFile(storage, localPath, remotePath, overwrite, progress)`
    (storage-algorithms.ts 220-249).  `node` is what `fs.readFile`
    finds at `localPath`.  The "file identical" branch reports
    progress with `changed = false` and returns bare `undefined`
    (`none`); the upload branch sends the checksum computed in the
    exists-branch, or `undefined` when the probe found nothing. -/
def uploadFile (hash : List Nat → List Nat) (st : RemoteState)
    (node : FSNode) (remotePath : Str) (overwrite : Bool) :
    Except JsError (Option SFileEntry × RemoteState) × List SyncEvent :=
  match maybeDescribe hash st remotePath with
  | .error e => (.error e, [])
  | .ok maybeEntry =>
    match jsReadFile node with
    | .error e => (.error e, [])
    | .ok localFile =>
      let doUpload : Option (List Nat) →
          Except JsError (Option SFileEntry × RemoteState) × List SyncEvent :=
        fun checksum? =>
          match RemoteState.upload hash st remotePath localFile checksum? with
          | (.error e, evs) => (.error e, evs)
          | (.ok (entry, st'), evs) =>
            (.ok (some entry, st'), evs ++ [.progress entry true])
      match maybeEntry with
      | some entry =>
        let checksum := hash localFile
        if arrayEquals checksum entry.checksum then
          (.ok (none, st), [.progress entry false])
        else if !overwrite then
          (.error (.overwriteRequired remotePath), [])
        else
          doUpload (some checksum)
      | none => doUpload none

/-- `storage.cd(remotePath).path`: the remote directory path against
    which child destinations are joined (`parentPath + name` of the
    entry `cd` builds). -/
def cdPath (p : Str) : Str :=
  cdDir p ++ (posixParseDirBase p).2

mutual

/-- `uploadPath(storage, localPath, remotePath, options)`
    (storage-algorithms.ts 271-308).  Dispatches on `fs.stat` (here the
    methods really are called: `stat.isFile()`, `stat.isDirectory()`). -/
def uploadPath (hash : List Nat → List Nat) (st : RemoteState)
    (node : FSNode) (localPath remotePath : Str)
    (recursive overwrite : Bool) :
    Except JsError (List (Option SFileEntry) × RemoteState) × List SyncEvent :=
  match node with
  | .file _ =>
    match uploadFile hash st node remotePath overwrite with
    | (.error e, evs) => (.error e, evs)
    | (.ok (res, st'), evs) => (.ok ([res], st'), evs)
  | .dir es =>
    if !recursive then (.error (.recursiveRequired localPath), [])
    else uploadDirLoop hash st es localPath (cdPath remotePath) overwrite
  | .other => (.error .unknownPathKind, [])

/-- `uploadDirectory` (storage-algorithms.ts 251-269): iterate the local
    listing in order, uploading each child to
    `remoteEntry.path + "/" + name` with `recursive: true`, concatenating
    results. -/
def uploadDirLoop (hash : List Nat → List Nat) (st : RemoteState)
    (es : List (Str × FSNode)) (localPath dirPath : Str)
    (overwrite : Bool) :
    Except JsError (List (Option SFileEntry) × RemoteState) × List SyncEvent :=
  match es with
  | [] => (.ok ([], st), [])
  | (n, child) :: rest =>
    match uploadPath hash st child (pathJoin localPath n)
        (dirPath ++ '/' :: n) true overwrite with
    | (.error e, evs) => (.error e, evs)
    | (.ok (res1, st1), evs1) =>
      match uploadDirLoop hash st1 rest localPath dirPath overwrite with
      | (.error e, evs2) => (.error e, evs1 ++ evs2)
      | (.ok (res2, st2), evs2) => (.ok (res1 ++ res2, st2), evs1 ++ evs2)

end

mutual

/-- The destination paths a sync walk writes to, with the local contents
    they receive: one pair per local file, in traversal order.  Mirrors
    the path arithmetic of `uploadPath`/`uploadDirectory`. -/
def destPaths : FSNode → Str → List (Str × List Nat)
  | .file c, rp => [(rp, c)]
  | .dir es, rp => destPathsList es (cdPath rp)
  | .other, _ => []

/-- `destPaths` over a local directory listing (`dirPath` is already the
    `cd`-normalized remote directory path). -/
def destPathsList : List (Str × FSNode) → Str → List (Str × List Nat)
  | [], _ => []
  | (n, child) :: rest, dp =>
    destPaths child (dp ++ '/' :: n) ++ destPathsList rest dp

end

/-- The `BunnyEntry` union as `loadPath` returns it. -/
inductive LoadedEntry where
  | file (e : SFileEntry)
  | dir (e : AbstractBunnyEntry)
deriving DecidableEq

/-- `loadPath(storage, path)` (storage-algorithms.ts 310-317): a
    separator-terminated path is turned into a directory entry by pure
    string splitting (`cd`); otherwise the path is described remotely,
    failing Not-Found when absent. -/
def loadPath (hash : List Nat → List Nat) (st : RemoteState) (p : Str) :
    Except JsError LoadedEntry :=
  if endsWithSlash p then
    match cd p with
    | .ok e => .ok (.dir e)
    | .error err => .error err
  else
    match st.lookup p with
    | some c => .ok (.file ⟨p, c.length, hash c⟩)
    | none => .error (.notFound p)

/-- Hash-level agreement between the store and a list of destination
    writes: every destination already holds contents with the same
    checksum as the local contents headed there. -/
def Synced (hash : List Nat → List Nat) (st : RemoteState)
    (dests : List (Str × List Nat)) : Prop :=
  ∀ pc ∈ dests, ∃ c', st.lookup pc.1 = some c' ∧ hash c' = hash pc.2

/-- The correspondence between the result list of `uploadPath` and its
    progress reports: a `changed` report contributes its entry, an
    `unchanged` report contributes `undefined`. -/
def progressToResult : SyncEvent → Option (Option SFileEntry)
  | .progress ent ch => some (if ch then some ent else none)
  | .uploadTransfer _ => none

mutual

/-- Decidable equality for `Tree`. -/
def Tree.decEq {T : Type} [DecidableEq T] : (a b : Tree T) → Decidable (a = b)
  | .node v1 cs1, .node v2 cs2 =>
    if hv : v1 = v2 then
      match Tree.decEqList cs1 cs2 with
      | isTrue hc => isTrue (by rw [hv, hc])
      | isFalse hc => isFalse (by intro h; cases h; exact hc rfl)
    else isFalse (by intro h; cases h; exact hv rfl)

def Tree.decEqList {T : Type} [DecidableEq T] :
    (as bs : List (Tree T)) → Decidable (as = bs)
  | [], [] => isTrue rfl
  | [], _ :: _ => isFalse (by intro h; cases h)
  | _ :: _, [] => isFalse (by intro h; cases h)
  | a :: as, b :: bs =>
    match Tree.decEq a b with
    | isTrue h1 =>
      match Tree.decEqList as bs with
      | isTrue h2 => isTrue (by rw [h1, h2])
      | isFalse h2 => isFalse (by intro h; injection h with _ h3; exact h2 h3)
    | isFalse h1 => isFalse (by intro h; injection h with h3 _; exact h1 h3)

end

instance {T : Type} [DecidableEq T] : DecidableEq (Tree T) := Tree.decEq

/-! # Theorems -/

/-- `arrayEquals` decides list equality. -/
theorem arrayEquals_iff (e a : List Nat) : arrayEquals e a = true ↔ e = a := by
  induction e generalizing a with
  | nil =>
    cases a <;> simp [arrayEquals]
  | cons x xs ih =>
    cases a with
    | nil => simp [arrayEquals]
    | cons y ys =>
      have h2 := ih ys
      simp only [arrayEquals, List.zip_cons_cons, List.all_cons,
        List.length_cons, Nat.beq_eq_true_eq, beq_iff_eq,
        Bool.and_eq_true, decide_eq_true_eq] at h2 ⊢
      constructor
      · rintro ⟨hl, hxy, hall⟩
        have := h2.mp ⟨by omega, hall⟩
        exact by rw [hxy, this]
      · rintro h
        cases h
        have := h2.mpr rfl
        exact ⟨by omega, rfl, this.2⟩

/-- A string ending in '/' is nonempty. -/
theorem endsWithSlash_ne_nil {s : Str} (h : endsWithSlash s = true) :
    s ≠ [] := by
  intro hs
  subst hs
  simp [endsWithSlash] at h

/-- Appending '/' makes a string separator-terminated. -/
theorem endsWithSlash_append_slash (s : Str) :
    endsWithSlash (s ++ ['/']) = true := by
  simp [endsWithSlash]

/-- Membership is invariant under first-occurrence deduplication. -/
theorem mem_dedupFirst (x : Str) : ∀ l : List Str, x ∈ dedupFirst l ↔ x ∈ l
  | [] => by simp [dedupFirst]
  | y :: ys => by
    rw [dedupFirst]
    by_cases hxy : x = y
    · subst hxy
      simp
    · have ih := mem_dedupFirst x ys
      simp only [List.mem_cons, List.mem_filter, ih, decide_eq_true_eq]
      constructor
      · rintro (h | ⟨h, _⟩)
        · exact absurd h hxy
        · exact Or.inr h
      · rintro (h | h)
        · exact absurd h hxy
        · exact Or.inr ⟨h, by simpa using hxy⟩

/-- First-occurrence deduplication yields a duplicate-free list. -/
theorem nodup_dedupFirst : ∀ l : List Str, (dedupFirst l).Nodup
  | [] => by simp [dedupFirst]
  | y :: ys => by
    rw [dedupFirst]
    refine List.nodup_cons.mpr ⟨?_, (nodup_dedupFirst ys).filter _⟩
    intro hy
    simp [List.mem_filter] at hy

/-- Characterization of the `arrayDiff` loop on duplicate-free inputs:
    partition of the left set against the right set, and the leftover
    right set. -/
theorem arrayDiffLoop_eq : ∀ (ls rs : List Str), ls.Nodup → rs.Nodup →
    arrayDiffLoop ls rs =
      (ls.filter (fun x => x ∉ rs), ls.filter (fun x => x ∈ rs),
       rs.filter (fun x => x ∉ ls)) := by
  intro ls
  induction ls with
  | nil =>
    intro rs _ _
    simp [arrayDiffLoop]
  | cons l ls ih =>
    intro rs hls hrs
    have hlnotin : l ∉ ls := (List.nodup_cons.mp hls).1
    have hlsnd : ls.Nodup := (List.nodup_cons.mp hls).2
    rw [arrayDiffLoop]
    by_cases hmem : l ∈ rs
    · simp only [if_pos hmem]
      rw [ih (rs.erase l) hlsnd (hrs.erase l)]
      have hfilter1 : ls.filter (fun x => x ∉ rs.erase l) =
          ls.filter (fun x => x ∉ rs) := by
        apply List.filter_congr
        intro x hx
        have hxl : x ≠ l := fun hh => hlnotin (hh ▸ hx)
        simp [List.mem_erase_of_ne hxl]
      have hfilter2 : ls.filter (fun x => x ∈ rs.erase l) =
          ls.filter (fun x => x ∈ rs) := by
        apply List.filter_congr
        intro x hx
        have hxl : x ≠ l := fun hh => hlnotin (hh ▸ hx)
        simp [List.mem_erase_of_ne hxl]
      have hfilter3 : (rs.erase l).filter (fun x => x ∉ ls) =
          rs.filter (fun x => x ∉ l :: ls) := by
        rw [hrs.erase_eq_filter, List.filter_filter]
        apply List.filter_congr
        intro x _
        simp only [List.mem_cons, decide_not]
        by_cases hxl : x = l <;> by_cases hxls : x ∈ ls <;>
          simp [hxl, hxls]
      rw [hfilter1, hfilter2, hfilter3]
      simp [hmem, hlnotin]
    · simp only [if_neg hmem]
      rw [ih rs hlsnd hrs]
      have hfilter3 : rs.filter (fun x => x ∉ ls) =
          rs.filter (fun x => x ∉ l :: ls) := by
        apply List.filter_congr
        intro x hx
        have hxl : x ≠ l := fun hh => hmem (hh ▸ hx)
        simp only [List.mem_cons, decide_not]
        by_cases hxls : x ∈ ls <;> simp [hxl, hxls]
      rw [hfilter3]
      simp [hmem]

/-- The three components of `arrayDiff L R` written as filters of the
    deduplicated inputs. -/
theorem arrayDiff_eq (L R : List Str) :
    arrayDiff L R =
      ⟨(dedupFirst L).filter (fun x => x ∉ dedupFirst R),
       (dedupFirst R).filter (fun x => x ∉ dedupFirst L),
       (dedupFirst L).filter (fun x => x ∈ dedupFirst R)⟩ := by
  have h := arrayDiffLoop_eq (dedupFirst L) (dedupFirst R) (nodup_dedupFirst L)
    (nodup_dedupFirst R)
  simp [arrayDiff, h]

/-- C6: `arrayDiff(L, R)` computes `onlyLeft = L \ R`, `onlyRight = R \ L`
    and `both = L ∩ R` as sets, and the component sizes add up to the
    numbers of distinct names of `L` and of `R`. -/
theorem arrayDiff_set_correct (L R : List Str) :
    (∀ x, x ∈ (arrayDiff L R).onlyLeft ↔ (x ∈ L ∧ x ∉ R)) ∧
    (∀ x, x ∈ (arrayDiff L R).onlyRight ↔ (x ∈ R ∧ x ∉ L)) ∧
    (∀ x, x ∈ (arrayDiff L R).both ↔ (x ∈ L ∧ x ∈ R)) ∧
    (arrayDiff L R).onlyLeft.length + (arrayDiff L R).both.length =
      L.toFinset.card ∧
    (arrayDiff L R).onlyRight.length + (arrayDiff L R).both.length =
      R.toFinset.card := by
  rw [arrayDiff_eq]
  dsimp only
  have hmemL := fun x => mem_dedupFirst x L
  have hmemR := fun x => mem_dedupFirst x R
  have hndL := nodup_dedupFirst L
  have hndR := nodup_dedupFirst R
  refine ⟨?_, ?_, ?_, ?_, ?_⟩
  · intro x
    simp [List.mem_filter, hmemL, hmemR]
  · intro x
    simp [List.mem_filter, hmemL, hmemR]
  · intro x
    simp [List.mem_filter, hmemL, hmemR]
  · have hsplit := List.length_eq_length_filter_add
      (l := dedupFirst L) (fun x => decide (x ∈ dedupFirst R))
    have hcongr : (dedupFirst L).filter
        (fun x => !(decide (x ∈ dedupFirst R))) =
        (dedupFirst L).filter (fun x => x ∉ dedupFirst R) := by
      apply List.filter_congr
      intro x _
      simp
    have hfin : (dedupFirst L).toFinset = L.toFinset := by
      ext x
      simp [List.mem_toFinset, hmemL]
    have hcard := List.toFinset_card_of_nodup hndL
    rw [← hfin, hcard, hsplit, ← hcongr]
    omega
  · have hbothlen : ((dedupFirst L).filter
        (fun x => x ∈ dedupFirst R)).length =
        ((dedupFirst R).filter (fun x => x ∈ dedupFirst L)).length := by
      have hnd1 := hndL.filter (p := fun x => decide (x ∈ dedupFirst R))
      have hnd2 := hndR.filter (p := fun x => decide (x ∈ dedupFirst L))
      have hfe : ((dedupFirst L).filter
          (fun x => x ∈ dedupFirst R)).toFinset =
          ((dedupFirst R).filter (fun x => x ∈ dedupFirst L)).toFinset := by
        ext x
        simp only [List.mem_toFinset, List.mem_filter, decide_eq_true_eq]
        exact ⟨fun ⟨a, b⟩ => ⟨b, a⟩, fun ⟨a, b⟩ => ⟨b, a⟩⟩
      have hc1 := List.toFinset_card_of_nodup hnd1
      have hc2 := List.toFinset_card_of_nodup hnd2
      rw [← hc1, ← hc2, hfe]
    have hsplit := List.length_eq_length_filter_add
      (l := dedupFirst R) (fun x => decide (x ∈ dedupFirst L))
    have hcongr : (dedupFirst R).filter
        (fun x => !(decide (x ∈ dedupFirst L))) =
        (dedupFirst R).filter (fun x => x ∉ dedupFirst L) := by
      apply List.filter_congr
      intro x _
      simp
    have hfin : (dedupFirst R).toFinset = R.toFinset := by
      ext x
      simp [List.mem_toFinset, hmemR]
    have hcard := List.toFinset_card_of_nodup hndR
    rw [hbothlen, ← hfin, hcard, hsplit, ← hcongr]
    omega

/-- A decoded hex digit is below 16. -/
theorem hexDigit?_lt {c : Char} {d : Nat} (h : hexDigit? c = some d) :
    d < 16 := by
  unfold hexDigit? at h
  split at h
  · cases h; omega
  · split at h
    · cases h; omega
    · split at h
      · cases h; omega
      · cases h

set_option maxRecDepth 4096 in
/-- Decoding the canonical digit character gives the digit back. -/
theorem hexDigit?_digitChar : ∀ d < 16, hexDigit? (Nat.digitChar d) = some d := by
  decide

set_option maxRecDepth 65536 in
/-- `b.toString(16).padStart(2, "0")` of a byte is its two nibble
    characters. -/
theorem byteToHexChars_eq_of_lt : ∀ b < 256,
    byteToHexChars b = [Nat.digitChar (b / 16), Nat.digitChar (b % 16)] := by
  decide

/-- A canonical hex digit is its own case normalization. -/
theorem toLowerHex_eq {c : Char} {d : Nat} (h : hexDigit? c = some d) :
    toLowerHex c = Nat.digitChar d := by
  unfold toLowerHex
  rw [h]

/-- `parseInt` of a two-hex-digit slice. -/
theorem parseIntHex_pair {c1 c2 : Char} {d1 d2 : Nat}
    (h1 : hexDigit? c1 = some d1) (h2 : hexDigit? c2 = some d2) :
    parseIntHex [c1, c2] = some (d1 * 16 + d2) := by
  unfold parseIntHex
  simp [List.takeWhile, h1, h2]

/-- Decoding the hex encoding of a byte list gives the list back. -/
theorem hexPairsDecode_arrayToHex : ∀ b : List Nat, (∀ x ∈ b, x < 256) →
    hexPairsDecode (arrayToHex b) = some b := by
  intro b
  induction b with
  | nil =>
    intro _
    rfl
  | cons x bs ih =>
    intro hb
    have hx : x < 256 := hb x (List.mem_cons_self x bs)
    have hbs : ∀ y ∈ bs, y < 256 := fun y hy => hb y (List.mem_cons_of_mem x hy)
    have hhex : arrayToHex (x :: bs) =
        Nat.digitChar (x / 16) :: Nat.digitChar (x % 16) :: arrayToHex bs := by
      show byteToHexChars x ++ arrayToHex bs = _
      rw [byteToHexChars_eq_of_lt x hx]
      rfl
    rw [hhex]
    rw [hexPairsDecode]
    have hd1 := hexDigit?_digitChar (x / 16) (by omega)
    have hd2 := hexDigit?_digitChar (x % 16) (by omega)
    rw [parseIntHex_pair hd1 hd2, ih hbs]
    have : x / 16 * 16 + x % 16 = x := by omega
    rw [this]

/-- The hex encoding of a byte list has twice its length. -/
theorem arrayToHex_length : ∀ b : List Nat, (∀ x ∈ b, x < 256) →
    (arrayToHex b).length = 2 * b.length := by
  intro b
  induction b with
  | nil =>
    intro _
    rfl
  | cons x bs ih =>
    intro hb
    have hx : x < 256 := hb x (List.mem_cons_self x bs)
    have hbs : ∀ y ∈ bs, y < 256 := fun y hy => hb y (List.mem_cons_of_mem x hy)
    show (byteToHexChars x ++ arrayToHex bs).length = _
    rw [List.length_append, byteToHexChars_eq_of_lt x hx, ih hbs]
    simp
    omega

/-- Structural induction two characters at a time. -/
theorem twoStepInduction {P : Str → Prop} (h0 : P []) (h1 : ∀ c, P [c])
    (h2 : ∀ c1 c2 rest, P rest → P (c1 :: c2 :: rest)) : ∀ s, P s
  | [] => h0
  | [c] => h1 c
  | c1 :: c2 :: rest => h2 c1 c2 rest (twoStepInduction h0 h1 h2 rest)

/-- Decoding an even-length string of hex digits succeeds, and
    re-encoding the result reproduces the case-normalized input. -/
theorem hexPairsDecode_allHex : ∀ s : Str, s.length % 2 = 0 →
    (∀ c ∈ s, (hexDigit? c).isSome) →
    ∃ bs, hexPairsDecode s = some bs ∧ arrayToHex bs = s.map toLowerHex := by
  refine twoStepInduction ?_ ?_ ?_
  · intro _ _
    exact ⟨[], rfl, rfl⟩
  · intro c hlen _
    simp at hlen
  · intro c1 c2 rest ih hlen hhex
    have hlen' : rest.length % 2 = 0 := by
      simp only [List.length_cons] at hlen
      omega
    have hhex' : ∀ c ∈ rest, (hexDigit? c).isSome := fun c hc =>
      hhex c (List.mem_cons_of_mem c1 (List.mem_cons_of_mem c2 hc))
    have h1s : (hexDigit? c1).isSome := hhex c1 (List.mem_cons_self c1 _)
    have h2s : (hexDigit? c2).isSome :=
      hhex c2 (List.mem_cons_of_mem c1 (List.mem_cons_self c2 _))
    obtain ⟨d1, hd1⟩ := Option.isSome_iff_exists.mp h1s
    obtain ⟨d2, hd2⟩ := Option.isSome_iff_exists.mp h2s
    obtain ⟨bs, hbs, henc⟩ := ih hlen' hhex'
    refine ⟨(d1 * 16 + d2) :: bs, ?_, ?_⟩
    · simp [hexPairsDecode, parseIntHex_pair hd1 hd2, hbs]
    · have hd1lt := hexDigit?_lt hd1
      have hd2lt := hexDigit?_lt hd2
      have hbyte : d1 * 16 + d2 < 256 := by omega
      show byteToHexChars (d1 * 16 + d2) ++ arrayToHex bs = _
      rw [byteToHexChars_eq_of_lt _ hbyte, henc]
      have e1 : (d1 * 16 + d2) / 16 = d1 := by omega
      have e2 : (d1 * 16 + d2) % 16 = d2 := by omega
      rw [e1, e2, List.map_cons, List.map_cons,
        toLowerHex_eq hd1, toLowerHex_eq hd2]
      rfl

/-- C7 counterexample: the claim includes the empty byte array (its
    length 0 is even), but `hexDecoder` rejects the empty string, so the
    decode side of the round trip fails there. -/
theorem hex_roundtrip_counterexample :
    ([] : List Nat).length % 2 = 0 ∧
    arrayToHex [] = [] ∧
    hexToArray (arrayToHex []) ≠ some [] := by
  refine ⟨rfl, rfl, ?_⟩
  decide

/-- C7 (amended): for every nonempty byte array `b`,
    `hexToArray (arrayToHex b) = b`; and for every nonempty even-length
    string of hex digits, decoding succeeds and re-encoding reproduces
    the case-normalized string. -/
theorem hex_roundtrip (b : List Nat) (s : Str)
    (hb : b ≠ []) (hbyte : ∀ x ∈ b, x < 256)
    (hs : s ≠ []) (hlen : s.length % 2 = 0)
    (hhex : ∀ c ∈ s, (hexDigit? c).isSome) :
    hexToArray (arrayToHex b) = some b ∧
    ∃ bs, hexToArray s = some bs ∧ arrayToHex bs = s.map toLowerHex := by
  constructor
  · unfold hexToArray
    have hl := arrayToHex_length b hbyte
    have hbpos : 0 < b.length := List.length_pos.mpr hb
    rw [if_neg (by omega)]
    exact hexPairsDecode_arrayToHex b hbyte
  · obtain ⟨bs, hbs, henc⟩ := hexPairsDecode_allHex s hlen hhex
    refine ⟨bs, ?_, henc⟩
    unfold hexToArray
    have hspos : 0 < s.length := List.length_pos.mpr hs
    rw [if_neg (by omega)]
    exact hbs

/-- C8: `BunnyStorage.upload` returns the entry described by the server
    after the transfer only when its checksum equals the checksum that
    was sent (the supplied one, or the locally computed digest of the
    body); a description carrying any other checksum makes the call fail
    with Checksum-Mismatch. -/
theorem upload_checksum_verified :
    (∀ (hash : List Nat → List Nat) (p : Str) (body : List Nat)
       (checksum? : Option (List Nat)) (described e : SFileEntry),
       storageUploadWith hash p body checksum? described = .ok e →
       e = described ∧ e.checksum = checksum?.getD (hash body)) ∧
    (∀ (hash : List Nat → List Nat) (p : Str) (body : List Nat)
       (checksum? : Option (List Nat)) (described : SFileEntry),
       endsWithSlash p = false →
       described.checksum ≠ checksum?.getD (hash body) →
       storageUploadWith hash p body checksum? described =
         .error (.checksumMismatch p)) := by
  constructor
  · intro hash p body checksum? described e h
    unfold storageUploadWith at h
    split at h
    · cases h
    · split at h
      · cases h
        rename_i heq
        have := (arrayEquals_iff _ _).mp heq
        exact ⟨rfl, this.symm⟩
      · cases h
  · intro hash p body checksum? described hslash hne
    unfold storageUploadWith
    rw [hslash]
    have hfalse : arrayEquals (checksum?.getD (hash body))
        described.checksum = false := by
      cases hcase : arrayEquals (checksum?.getD (hash body)) described.checksum
      · rfl
      · exact absurd ((arrayEquals_iff _ _).mp hcase).symm hne
    rw [hfalse]
    simp

/-- C9: a constructed entry's checksum is present exactly when the entry
    is a file, and its parent path is nonempty and separator-terminated;
    any construction attempt violating either condition throws. -/
theorem entry_invariant :
    (∀ (t : BunnyType) (pp nm : Str) (len : Nat)
       (ck : Option (List Nat)) (e : AbstractBunnyEntry),
       mkEntry t pp nm len ck = .ok e →
       ((e.checksum.isSome ↔ e.type = BunnyType.file) ∧
        e.parentPath ≠ [] ∧ endsWithSlash e.parentPath = true)) ∧
    (∀ (t : BunnyType) (pp nm : Str) (len : Nat) (ck : Option (List Nat)),
       ¬ ((ck.isSome ↔ t = BunnyType.file) ∧ endsWithSlash pp = true) →
       ∃ err, mkEntry t pp nm len ck = .error err) := by
  constructor
  · intro t pp nm len ck e h
    unfold mkEntry at h
    split at h
    · cases h
    · rename_i hck
      split at h
      · cases h
      · rename_i hpp
        cases h
        simp only [Bool.not_eq_true', Bool.not_eq_false] at hpp
        refine ⟨?_, endsWithSlash_ne_nil hpp, hpp⟩
        cases t <;> cases ck <;> simp_all
  · intro t pp nm len ck hviol
    unfold mkEntry
    by_cases hck : ((decide (t = BunnyType.dir)) != ck.isNone) = true
    · rw [if_pos hck]
      exact ⟨_, rfl⟩
    · rw [if_neg hck]
      have hpp : endsWithSlash pp = false := by
        rw [Bool.eq_false_iff]
        intro hh
        apply hviol
        refine ⟨?_, hh⟩
        cases t <;> cases ck <;> simp_all
      rw [if_pos (by rw [hpp]; rfl)]
      exact ⟨_, rfl⟩

/-- C10: for a separator-terminated remote path, `loadPath` answers from
    `cd`'s pure path split, independently of the remote store: it always
    succeeds with a directory entry whose `parentPath` is the
    separator-terminated directory part and whose `name` is the base
    name of the path. -/
theorem loadPath_trailing_slash (p : Str) (h : endsWithSlash p = true)
    (hash : List Nat → List Nat) (st : RemoteState) :
    ∃ e, loadPath hash st p = .ok (.dir e) ∧
      e.type = BunnyType.dir ∧
      e.parentPath = cdDir p ∧
      e.name = (posixParseDirBase p).2 ∧
      endsWithSlash e.parentPath = true ∧
      e.checksum = none := by
  have hdir : endsWithSlash (cdDir p) = true := by
    simp only [cdDir]
    cases hcase : endsWithSlash (posixParseDirBase p).1
    · simpa using endsWithSlash_append_slash (posixParseDirBase p).1
    · simpa using hcase
  have hcd : cd p = .ok ⟨BunnyType.dir, cdDir p,
      (posixParseDirBase p).2, 0, none⟩ := by
    unfold cd mkEntry
    rw [if_neg (by simp)]
    rw [if_neg (by rw [hdir]; simp)]
  refine ⟨⟨BunnyType.dir, cdDir p, (posixParseDirBase p).2, 0, none⟩,
    ?_, rfl, rfl, rfl, hdir, rfl⟩
  unfold loadPath
  rw [h]
  simp only [if_pos]
  rw [hcd]

/-- C1 (evaluation at the failing inputs): because the source tests the
    method references `stat.isFile` / `stat.isDirectory` without calling
    them, the `type`-difference branches never run; `diffFiles` on a
    local directory crashes in `fs.readFile` (EISDIR) instead of
    reporting a `type` difference, and `diffDirectories` on a local
    regular file crashes in `fs.readdir` (ENOTDIR). -/
theorem diff_type_branch_dead :
    (diffFiles (fun l => l) ['l'] (some (.dir [])) ['r'] [] =
      .error .eisdir) ∧
    (diffDirectories (fun l => l) ['l'] (some (.file [1])) ['r'] [] true =
      .error .enotdir) := by
  constructor
  · rfl
  · rw [diffDirectories.eq_def]
    rfl

/-- C5: a directory comparison (local side really a directory) emits the
    container difference exactly when one of `onlyLocal`, `onlyRemote`
    or the coalesced recursive results is nonempty, with the children in
    that segment order; when all three are empty the result is absent. -/
theorem diffDirectories_container (hash : List Nat → List Nat)
    (lp : Str) (les : List (Str × FSNode)) (rpath : Str)
    (rents : List RemoteEntry) (recursive : Bool)
    (res : Option PathDifference)
    (h : diffDirectories hash lp (some (.dir les)) rpath rents recursive =
      .ok res) :
    ∃ children,
      (if recursive then
         (diffBoth hash lp les rents
           (arrayDiff (les.map Prod.fst)
             (jsObjectKeys (rents.map RemoteEntry.name))).both).map coalesce
       else .ok []) = .ok children ∧
      (res = none ↔
        ((arrayDiff (les.map Prod.fst)
            (jsObjectKeys (rents.map RemoteEntry.name))).onlyLeft = [] ∧
         (arrayDiff (les.map Prod.fst)
            (jsObjectKeys (rents.map RemoteEntry.name))).onlyRight = [] ∧
         children = [])) ∧
      (∀ t, res = some t →
        t = .node ⟨some lp, some rpath, none⟩
          ((arrayDiff (les.map Prod.fst)
              (jsObjectKeys (rents.map RemoteEntry.name))).onlyLeft.map
                (fun l => .node ⟨some l, none, some .onlyLocal⟩ []) ++
           (arrayDiff (les.map Prod.fst)
              (jsObjectKeys (rents.map RemoteEntry.name))).onlyRight.map
                (fun r => .node ⟨none, some r, some .onlyRemote⟩ []) ++
           children)) := by
  rw [diffDirectories.eq_def] at h
  simp only [statIsDirectoryRef, Bool.not_true, Bool.false_eq_true,
    if_false] at h
  split at h
  · cases h
  · rename_i children heq
    refine ⟨children, heq, ?_⟩
    split at h
    · cases h
      rename_i hcond
      constructor
      · constructor
        · intro hnone
          cases hnone
        · rintro ⟨h1, h2, h3⟩
          rw [h1, h2, h3] at hcond
          simp at hcond
      · intro t ht
        cases ht
        rfl
    · cases h
      rename_i hcond
      push_neg at hcond
      constructor
      · constructor
        · intro _
          refine ⟨List.length_eq_zero.mp (by omega),
            List.length_eq_zero.mp (by omega),
            List.length_eq_zero.mp (by omega)⟩
        · intro _
          rfl
      · intro t ht
        cases ht

/-- Lookup after a PUT: the written path reads back the body, all other
    paths are untouched. -/
theorem lookup_put (st : RemoteState) (p q : Str) (b : List Nat) :
    (st.put p b).lookup q = if p = q then some b else st.lookup q := by
  rfl


/-- `BunnyStorage.upload` against the honest modelled store, when the
    sent checksum (defaulted to the digest of the body) matches what the
    server will describe: the body is stored and the described entry is
    returned, with one PUT event. -/
theorem upload_state_honest (hash : List Nat → List Nat) (st : RemoteState)
    (rp : Str) (body : List Nat) (ck? : Option (List Nat))
    (hsl : endsWithSlash rp = false)
    (hck : ck?.getD (hash body) = hash body) :
    RemoteState.upload hash st rp body ck? =
      (.ok (⟨rp, body.length, hash body⟩, st.put rp body),
       [.uploadTransfer rp]) := by
  have hc : ¬ (endsWithSlash rp = true) := by simp [hsl]
  unfold RemoteState.upload storageUploadWith
  rw [if_neg hc]
  dsimp only
  rw [if_neg hc, hck, if_pos ((arrayEquals_iff _ _).mpr rfl)]

/-- `uploadFile` on a separator-terminated destination: the existence
    probe itself throws, before any transfer or progress report. -/
theorem uploadFile_slash (hash : List Nat → List Nat) (st : RemoteState)
    (node : FSNode) (rp : Str) (ow : Bool)
    (hsl : endsWithSlash rp = true) :
    uploadFile hash st node rp ow = (.error (.fileExpected rp), []) := by
  unfold uploadFile maybeDescribe
  rw [if_pos hsl]

/-- `uploadFile` on a local node that `fs.readFile` rejects: the read
    error aborts the call before any transfer or progress report. -/
theorem uploadFile_not_file (hash : List Nat → List Nat) (st : RemoteState)
    (node : FSNode) (rp : Str) (ow : Bool)
    (hsl : endsWithSlash rp = false)
    (hnode : jsReadFile node = .error .eisdir) :
    uploadFile hash st node rp ow = (.error .eisdir, []) := by
  have hc : ¬ (endsWithSlash rp = true) := by simp [hsl]
  unfold uploadFile maybeDescribe
  rw [if_neg hc, hnode]

/-- `uploadFile` when the destination does not exist remotely: upload
    with no pre-supplied checksum, then one `changed` progress report. -/
theorem uploadFile_new (hash : List Nat → List Nat) (st : RemoteState)
    (c : List Nat) (rp : Str) (ow : Bool)
    (hsl : endsWithSlash rp = false)
    (hlk : st.lookup rp = none) :
    uploadFile hash st (.file c) rp ow =
      (.ok (some ⟨rp, c.length, hash c⟩, st.put rp c),
       [.uploadTransfer rp, .progress ⟨rp, c.length, hash c⟩ true]) := by
  have hc : ¬ (endsWithSlash rp = true) := by simp [hsl]
  unfold uploadFile maybeDescribe
  rw [if_neg hc, hlk]
  dsimp only [Option.map, jsReadFile]
  rw [upload_state_honest hash st rp c none hsl rfl]
  rfl

/-- `uploadFile` when the destination exists with a matching checksum:
    no transfer, the state is unchanged, and the progress callback is
    invoked exactly once with `changed = false`. -/
theorem uploadFile_unchanged (hash : List Nat → List Nat) (st : RemoteState)
    (c c0 : List Nat) (rp : Str) (ow : Bool)
    (hsl : endsWithSlash rp = false)
    (hlk : st.lookup rp = some c0)
    (hck : hash c0 = hash c) :
    uploadFile hash st (.file c) rp ow =
      (.ok (none, st), [.progress ⟨rp, c0.length, hash c0⟩ false]) := by
  have hc : ¬ (endsWithSlash rp = true) := by simp [hsl]
  unfold uploadFile maybeDescribe
  rw [if_neg hc, hlk]
  dsimp only [Option.map, jsReadFile]
  rw [if_pos ((arrayEquals_iff _ _).mpr hck.symm)]

/-- `uploadFile` when the destination exists with a different checksum
    and `overwrite` is off: the Overwrite-Required error names the
    remote path, and no transfer or progress happens. -/
theorem uploadFile_conflict_blocked (hash : List Nat → List Nat)
    (st : RemoteState) (c c0 : List Nat) (rp : Str)
    (hsl : endsWithSlash rp = false)
    (hlk : st.lookup rp = some c0)
    (hck : hash c0 ≠ hash c) :
    uploadFile hash st (.file c) rp false =
      (.error (.overwriteRequired rp), []) := by
  have hc : ¬ (endsWithSlash rp = true) := by simp [hsl]
  have hae : ¬ (arrayEquals (hash c) (hash c0) = true) := fun hcase =>
    hck ((arrayEquals_iff _ _).mp hcase).symm
  unfold uploadFile maybeDescribe
  rw [if_neg hc, hlk]
  dsimp only [Option.map, jsReadFile]
  rw [if_neg hae]
  rfl

/-- `uploadFile` when the destination exists with a different checksum
    and `overwrite` is on: the local contents are transferred (sending
    the already-computed checksum) and reported as changed. -/
theorem uploadFile_conflict_overwrites (hash : List Nat → List Nat)
    (st : RemoteState) (c c0 : List Nat) (rp : Str)
    (hsl : endsWithSlash rp = false)
    (hlk : st.lookup rp = some c0)
    (hck : hash c0 ≠ hash c) :
    uploadFile hash st (.file c) rp true =
      (.ok (some ⟨rp, c.length, hash c⟩, st.put rp c),
       [.uploadTransfer rp, .progress ⟨rp, c.length, hash c⟩ true]) := by
  have hc : ¬ (endsWithSlash rp = true) := by simp [hsl]
  have hae : ¬ (arrayEquals (hash c) (hash c0) = true) := fun hcase =>
    hck ((arrayEquals_iff _ _).mp hcase).symm
  unfold uploadFile maybeDescribe
  rw [if_neg hc, hlk]
  dsimp only [Option.map, jsReadFile]
  rw [if_neg hae, if_neg (by simp)]
  rw [upload_state_honest hash st rp c (some (hash c)) hsl rfl]
  rfl

/-- A successful `uploadFile` implies: the destination is not
    separator-terminated, the local node is a regular file, and the
    resulting state is either unchanged (remote already matched by
    checksum) or the prior state with the local contents written at the
    destination. -/
theorem uploadFile_ok_cases (hash : List Nat → List Nat) (st : RemoteState)
    (node : FSNode) (rp : Str) (ow : Bool)
    (res : Option SFileEntry) (st' : RemoteState) (evs : List SyncEvent)
    (h : uploadFile hash st node rp ow = (.ok (res, st'), evs)) :
    endsWithSlash rp = false ∧
    ∃ c, node = .file c ∧
      ((st' = st ∧ ∃ c0, st.lookup rp = some c0 ∧ hash c0 = hash c) ∨
       st' = st.put rp c) := by
  cases hsl : endsWithSlash rp with
  | true =>
    rw [uploadFile_slash hash st node rp ow hsl] at h
    simp at h
  | false =>
    refine ⟨rfl, ?_⟩
    cases node with
    | dir es =>
      rw [uploadFile_not_file hash st (.dir es) rp ow hsl rfl] at h
      simp at h
    | other =>
      rw [uploadFile_not_file hash st .other rp ow hsl rfl] at h
      simp at h
    | file c =>
      refine ⟨c, rfl, ?_⟩
      cases hlk : st.lookup rp with
      | none =>
        rw [uploadFile_new hash st c rp ow hsl hlk] at h
        simp only [Prod.mk.injEq, Except.ok.injEq] at h
        exact Or.inr h.1.2.symm
      | some c0 =>
        by_cases hck : hash c0 = hash c
        · rw [uploadFile_unchanged hash st c c0 rp ow hsl hlk hck] at h
          simp only [Prod.mk.injEq, Except.ok.injEq] at h
          exact Or.inl ⟨h.1.2.symm, ⟨c0, rfl, hck⟩⟩
        · cases ow with
          | false =>
            rw [uploadFile_conflict_blocked hash st c c0 rp hsl hlk hck] at h
            simp at h
          | true =>
            rw [uploadFile_conflict_overwrites hash st c c0 rp hsl hlk hck] at h
            simp only [Prod.mk.injEq, Except.ok.injEq] at h
            exact Or.inr h.1.2.symm

mutual

/-- A sync walk writes only to its destination paths: any other remote
    path keeps its prior contents. -/
theorem uploadPath_preserves :
    ∀ (node : FSNode) (hash : List Nat → List Nat) (st : RemoteState)
      (lp rp : Str) (rec ow : Bool) (res : List (Option SFileEntry))
      (st' : RemoteState) (evs : List SyncEvent),
      uploadPath hash st node lp rp rec ow = (.ok (res, st'), evs) →
      ∀ q, q ∉ (destPaths node rp).map Prod.fst →
      st'.lookup q = st.lookup q
  | .file c => by
    intro hash st lp rp rec ow res st' evs h q hq
    rw [uploadPath] at h
    split at h
    · simp at h
    · rename_i resA stA evsA heq
      simp only [Prod.mk.injEq, Except.ok.injEq] at h
      obtain ⟨⟨_, h2⟩, _⟩ := h
      rw [← h2]
      have hqne : q ≠ rp := by
        simp [destPaths] at hq
        exact hq
      obtain ⟨_, c', hc', hcase⟩ := uploadFile_ok_cases _ _ _ _ _ _ _ _ heq
      rcases hcase with ⟨hst, _⟩ | hst
      · rw [hst]
      · rw [hst, lookup_put]
        rw [if_neg (fun hh => hqne hh.symm)]
  | .dir es => by
    intro hash st lp rp rec ow res st' evs h q hq
    rw [uploadPath] at h
    cases rec with
    | false => simp at h
    | true =>
      simp only [Bool.not_true, Bool.false_eq_true, if_false] at h
      have hq' : q ∉ (destPathsList es (cdPath rp)).map Prod.fst := by
        simpa [destPaths] using hq
      exact uploadDirLoop_preserves es hash st lp (cdPath rp) ow res st' evs h q hq'
  | .other => by
    intro hash st lp rp rec ow res st' evs h q hq
    rw [uploadPath] at h
    simp at h

/-- `uploadPath_preserves`, for the directory loop. -/
theorem uploadDirLoop_preserves :
    ∀ (es : List (Str × FSNode)) (hash : List Nat → List Nat)
      (st : RemoteState) (lp dp : Str) (ow : Bool)
      (res : List (Option SFileEntry)) (st' : RemoteState)
      (evs : List SyncEvent),
      uploadDirLoop hash st es lp dp ow = (.ok (res, st'), evs) →
      ∀ q, q ∉ (destPathsList es dp).map Prod.fst →
      st'.lookup q = st.lookup q
  | [] => by
    intro hash st lp dp ow res st' evs h q _
    rw [uploadDirLoop] at h
    simp only [Prod.mk.injEq, Except.ok.injEq] at h
    rw [← h.1.2]
  | (n, child) :: rest => by
    intro hash st lp dp ow res st' evs h q hq
    rw [uploadDirLoop] at h
    split at h
    · simp at h
    · rename_i resA stA evsA heq1
      split at h
      · simp at h
      · rename_i resB stB evsB heq2
        simp only [Prod.mk.injEq, Except.ok.injEq] at h
        obtain ⟨⟨_, h2⟩, _⟩ := h
        rw [← h2]
        simp only [destPathsList, List.map_append, List.mem_append] at hq
        push_neg at hq
        rw [uploadDirLoop_preserves rest hash stA lp dp ow resB stB evsB heq2 q hq.2]
        exact uploadPath_preserves child hash st (pathJoin lp n) (dp ++ '/' :: n) true ow
          resA stA evsA heq1 q hq.1

end

mutual

/-- After a successful sync walk whose destination paths are pairwise
    distinct, every destination holds contents whose checksum matches
    the local contents headed there. -/
theorem uploadPath_sync :
    ∀ (node : FSNode) (hash : List Nat → List Nat) (st : RemoteState)
      (lp rp : Str) (rec ow : Bool) (res : List (Option SFileEntry))
      (st' : RemoteState) (evs : List SyncEvent),
      uploadPath hash st node lp rp rec ow = (.ok (res, st'), evs) →
      ((destPaths node rp).map Prod.fst).Nodup →
      Synced hash st' (destPaths node rp)
  | .file c => by
    intro hash st lp rp rec ow res st' evs h _ pc hpc
    rw [uploadPath] at h
    split at h
    · simp at h
    · rename_i resA stA evsA heq
      simp only [Prod.mk.injEq, Except.ok.injEq] at h
      obtain ⟨⟨_, h2⟩, _⟩ := h
      rw [← h2]
      simp only [destPaths, List.mem_singleton] at hpc
      subst hpc
      obtain ⟨_, c', hc', hcase⟩ := uploadFile_ok_cases _ _ _ _ _ _ _ _ heq
      cases hc'
      rcases hcase with ⟨hst, c0, hlk, hck⟩ | hst
      · rw [hst]
        exact ⟨c0, hlk, hck⟩
      · rw [hst, lookup_put, if_pos rfl]
        exact ⟨c, rfl, rfl⟩
  | .dir es => by
    intro hash st lp rp rec ow res st' evs h hnd
    rw [uploadPath] at h
    cases rec with
    | false => simp at h
    | true =>
      simp only [Bool.not_true, Bool.false_eq_true, if_false] at h
      have hnd' : ((destPathsList es (cdPath rp)).map Prod.fst).Nodup := by
        simpa [destPaths] using hnd
      have := uploadDirLoop_sync es hash st lp (cdPath rp) ow res st' evs h hnd'
      intro pc hpc
      exact this pc (by simpa [destPaths] using hpc)
  | .other => by
    intro hash st lp rp rec ow res st' evs h _
    rw [uploadPath] at h
    simp at h

/-- `uploadPath_sync`, for the directory loop. -/
theorem uploadDirLoop_sync :
    ∀ (es : List (Str × FSNode)) (hash : List Nat → List Nat)
      (st : RemoteState) (lp dp : Str) (ow : Bool)
      (res : List (Option SFileEntry)) (st' : RemoteState)
      (evs : List SyncEvent),
      uploadDirLoop hash st es lp dp ow = (.ok (res, st'), evs) →
      ((destPathsList es dp).map Prod.fst).Nodup →
      Synced hash st' (destPathsList es dp)
  | [] => by
    intro hash st lp dp ow res st' evs h _ pc hpc
    simp [destPathsList] at hpc
  | (n, child) :: rest => by
    intro hash st lp dp ow res st' evs h hnd
    rw [uploadDirLoop] at h
    split at h
    · simp at h
    · rename_i resA stA evsA heq1
      split at h
      · simp at h
      · rename_i resB stB evsB heq2
        simp only [Prod.mk.injEq, Except.ok.injEq] at h
        obtain ⟨⟨_, h2⟩, _⟩ := h
        rw [← h2]
        simp only [destPathsList, List.map_append] at hnd
        rw [List.nodup_append] at hnd
        obtain ⟨hnd1, hnd2, hdisj⟩ := hnd
        have hsync1 := uploadPath_sync child hash st (pathJoin lp n)
          (dp ++ '/' :: n) true ow resA stA evsA heq1 hnd1
        have hsync2 := uploadDirLoop_sync rest hash stA lp dp ow
          resB stB evsB heq2 hnd2
        intro pc hpc
        simp only [destPathsList, List.mem_append] at hpc
        rcases hpc with hpc1 | hpc2
        · have hnotin : pc.1 ∉ (destPathsList rest dp).map Prod.fst := by
            intro hmem
            exact hdisj (List.mem_map_of_mem Prod.fst hpc1) hmem
          have hpres := uploadDirLoop_preserves rest hash stA lp dp ow
            resB stB evsB heq2 pc.1 hnotin
          obtain ⟨c', hc', hck⟩ := hsync1 pc hpc1
          exact ⟨c', by rw [hpres]; exact hc', hck⟩
        · exact hsync2 pc hpc2

end

mutual

/-- A second sync walk over a store that already matches every
    destination by checksum succeeds without changing the store,
    reports each file exactly once as unchanged, and performs no
    transfer. -/
theorem uploadPath_run2 :
    ∀ (node : FSNode) (hash : List Nat → List Nat) (st0 st : RemoteState)
      (lp rp : Str) (rec ow : Bool)
      (r1 : List (Option SFileEntry) × RemoteState) (evs1 : List SyncEvent),
      uploadPath hash st0 node lp rp rec ow = (.ok r1, evs1) →
      Synced hash st (destPaths node rp) →
      ∃ res' evs',
        uploadPath hash st node lp rp rec ow = (.ok (res', st), evs') ∧
        (∀ e ∈ evs', ∃ ent, e = SyncEvent.progress ent false) ∧
        evs'.length = (destPaths node rp).length
  | .file c => by
    intro hash st0 st lp rp rec ow r1 evs1 h1 hsync
    rw [uploadPath] at h1
    split at h1
    · simp at h1
    · rename_i resA stA evsA heq
      obtain ⟨hsl, -, -, -⟩ := uploadFile_ok_cases _ _ _ _ _ _ _ _ heq
      obtain ⟨c', hlk, hck⟩ := hsync (rp, c) (by simp [destPaths])
      refine ⟨[none], [.progress ⟨rp, c'.length, hash c'⟩ false], ?_, ?_, ?_⟩
      · rw [uploadPath, uploadFile_unchanged hash st c c' rp ow hsl hlk hck]
      · intro e he
        simp only [List.mem_singleton] at he
        exact ⟨_, he⟩
      · simp [destPaths]
  | .dir es => by
    intro hash st0 st lp rp rec ow r1 evs1 h1 hsync
    rw [uploadPath] at h1
    cases rec with
    | false => simp at h1
    | true =>
      simp only [Bool.not_true, Bool.false_eq_true, if_false] at h1
      have hsync' : Synced hash st (destPathsList es (cdPath rp)) := by
        intro pc hpc
        exact hsync pc (by simpa [destPaths] using hpc)
      obtain ⟨res', evs', hrun, hall, hlen⟩ :=
        uploadDirLoop_run2 es hash st0 st lp (cdPath rp) ow r1 evs1 h1 hsync'
      refine ⟨res', evs', ?_, hall, ?_⟩
      · rw [uploadPath]
        simp only [Bool.not_true, Bool.false_eq_true, if_false]
        exact hrun
      · rw [hlen]
        simp [destPaths]
  | .other => by
    intro hash st0 st lp rp rec ow r1 evs1 h1 _
    rw [uploadPath] at h1
    simp at h1

/-- `uploadPath_run2`, for the directory loop. -/
theorem uploadDirLoop_run2 :
    ∀ (es : List (Str × FSNode)) (hash : List Nat → List Nat)
      (st0 st : RemoteState) (lp dp : Str) (ow : Bool)
      (r1 : List (Option SFileEntry) × RemoteState) (evs1 : List SyncEvent),
      uploadDirLoop hash st0 es lp dp ow = (.ok r1, evs1) →
      Synced hash st (destPathsList es dp) →
      ∃ res' evs',
        uploadDirLoop hash st es lp dp ow = (.ok (res', st), evs') ∧
        (∀ e ∈ evs', ∃ ent, e = SyncEvent.progress ent false) ∧
        evs'.length = (destPathsList es dp).length
  | [] => by
    intro hash st0 st lp dp ow r1 evs1 _ _
    refine ⟨[], [], ?_, by simp, by simp [destPathsList]⟩
    rw [uploadDirLoop]
  | (n, child) :: rest => by
    intro hash st0 st lp dp ow r1 evs1 h1 hsync
    rw [uploadDirLoop] at h1
    split at h1
    · simp at h1
    · rename_i resA stA evsA heq1
      split at h1
      · simp at h1
      · rename_i resB stB evsB heq2
        have hsync1 : Synced hash st (destPaths child (dp ++ '/' :: n)) := by
          intro pc hpc
          exact hsync pc (by simp only [destPathsList, List.mem_append]; exact Or.inl hpc)
        have hsync2 : Synced hash st (destPathsList rest dp) := by
          intro pc hpc
          exact hsync pc (by simp only [destPathsList, List.mem_append]; exact Or.inr hpc)
        obtain ⟨resC, evsC, hC, hallC, hlenC⟩ :=
          uploadPath_run2 child hash st0 st (pathJoin lp n) (dp ++ '/' :: n)
            true ow (resA, stA) evsA heq1 hsync1
        obtain ⟨resD, evsD, hD, hallD, hlenD⟩ :=
          uploadDirLoop_run2 rest hash stA st lp dp ow (resB, stB) evsB
            heq2 hsync2
        refine ⟨resC ++ resD, evsC ++ evsD, ?_, ?_, ?_⟩
        · rw [uploadDirLoop, hC]
          dsimp only
          rw [hD]
        · intro e he
          rcases List.mem_append.mp he with h | h
          · exact hallC e h
          · exact hallD e h
        · simp only [destPathsList, List.length_append, hlenC, hlenD]

end

/-- `uploadFile`'s returned value corresponds to its progress report:
    the entry for a `changed` report, `undefined` for an `unchanged`
    one. -/
theorem uploadFile_result_events (hash : List Nat → List Nat)
    (st : RemoteState) (node : FSNode) (rp : Str) (ow : Bool)
    (resA : Option SFileEntry) (stA : RemoteState) (evs : List SyncEvent)
    (h : uploadFile hash st node rp ow = (.ok (resA, stA), evs)) :
    [resA] = evs.filterMap progressToResult := by
  cases hsl : endsWithSlash rp with
  | true =>
    rw [uploadFile_slash hash st node rp ow hsl] at h
    simp at h
  | false =>
    cases node with
    | dir es =>
      rw [uploadFile_not_file hash st (.dir es) rp ow hsl rfl] at h
      simp at h
    | other =>
      rw [uploadFile_not_file hash st .other rp ow hsl rfl] at h
      simp at h
    | file c =>
      cases hlk : st.lookup rp with
      | none =>
        rw [uploadFile_new hash st c rp ow hsl hlk] at h
        simp only [Prod.mk.injEq, Except.ok.injEq] at h
        rw [← h.1.1, ← h.2]
        rfl
      | some c0 =>
        by_cases hck : hash c0 = hash c
        · rw [uploadFile_unchanged hash st c c0 rp ow hsl hlk hck] at h
          simp only [Prod.mk.injEq, Except.ok.injEq] at h
          rw [← h.1.1, ← h.2]
          rfl
        · cases ow with
          | false =>
            rw [uploadFile_conflict_blocked hash st c c0 rp hsl hlk hck] at h
            simp at h
          | true =>
            rw [uploadFile_conflict_overwrites hash st c c0 rp hsl hlk hck] at h
            simp only [Prod.mk.injEq, Except.ok.injEq] at h
            rw [← h.1.1, ← h.2]
            rfl

mutual

/-- The list `uploadPath` returns has exactly one element per progress
    report, in order: the resulting entry for files reported as
    changed, `undefined` for files reported as unchanged. -/
theorem uploadPath_resultList :
    ∀ (node : FSNode) (hash : List Nat → List Nat) (st : RemoteState)
      (lp rp : Str) (rec ow : Bool) (res : List (Option SFileEntry))
      (st' : RemoteState) (evs : List SyncEvent),
      uploadPath hash st node lp rp rec ow = (.ok (res, st'), evs) →
      res = evs.filterMap progressToResult
  | .file c => by
    intro hash st lp rp rec ow res st' evs h
    rw [uploadPath] at h
    split at h
    · simp at h
    · rename_i resA stA evsA heq
      simp only [Prod.mk.injEq, Except.ok.injEq] at h
      rw [← h.1.1, ← h.2]
      exact uploadFile_result_events hash st (.file c) rp ow resA stA evsA heq
  | .dir es => by
    intro hash st lp rp rec ow res st' evs h
    rw [uploadPath] at h
    cases rec with
    | false => simp at h
    | true =>
      simp only [Bool.not_true, Bool.false_eq_true, if_false] at h
      exact uploadDirLoop_resultList es hash st lp (cdPath rp) ow res st' evs h
  | .other => by
    intro hash st lp rp rec ow res st' evs h
    rw [uploadPath] at h
    simp at h

/-- `uploadPath_resultList`, for the directory loop. -/
theorem uploadDirLoop_resultList :
    ∀ (es : List (Str × FSNode)) (hash : List Nat → List Nat)
      (st : RemoteState) (lp dp : Str) (ow : Bool)
      (res : List (Option SFileEntry)) (st' : RemoteState)
      (evs : List SyncEvent),
      uploadDirLoop hash st es lp dp ow = (.ok (res, st'), evs) →
      res = evs.filterMap progressToResult
  | [] => by
    intro hash st lp dp ow res st' evs h
    rw [uploadDirLoop] at h
    simp only [Prod.mk.injEq, Except.ok.injEq] at h
    rw [← h.1.1, ← h.2]
    rfl
  | (n, child) :: rest => by
    intro hash st lp dp ow res st' evs h
    rw [uploadDirLoop] at h
    split at h
    · simp at h
    · rename_i resA stA evsA heq1
      split at h
      · simp at h
      · rename_i resB stB evsB heq2
        simp only [Prod.mk.injEq, Except.ok.injEq] at h
        rw [← h.1.1, ← h.2, List.filterMap_append]
        rw [uploadPath_resultList child hash st (pathJoin lp n)
          (dp ++ '/' :: n) true ow resA stA evsA heq1]
        rw [uploadDirLoop_resultList rest hash stA lp dp ow resB stB
          evsB heq2]

end

/-- C2: when the remote entry exists and its checksum equals the digest
    of the local file's bytes, `uploadFile` issues no transfer and
    invokes the progress callback exactly once with `changed = false`;
    consequently a second `uploadPath` run over an unchanged local tree
    (with pairwise-distinct destination paths) succeeds with the store
    untouched, performs zero transfers, and reports every file(one
    progress event per destination) as unchanged. -/
theorem upload_idempotent :
    (∀ (hash : List Nat → List Nat) (st : RemoteState) (c c0 : List Nat)
       (rp : Str) (ow : Bool),
       endsWithSlash rp = false →
       st.lookup rp = some c0 → hash c0 = hash c →
       uploadFile hash st (.file c) rp ow =
         (.ok (none, st), [.progress ⟨rp, c0.length, hash c0⟩ false])) ∧
    (∀ (hash : List Nat → List Nat) (st0 : RemoteState) (node : FSNode)
       (lp rp : Str) (rec ow : Bool) (res : List (Option SFileEntry))
       (st1 : RemoteState) (evs : List SyncEvent),
       uploadPath hash st0 node lp rp rec ow = (.ok (res, st1), evs) →
       ((destPaths node rp).map Prod.fst).Nodup →
       ∃ res' evs',
         uploadPath hash st1 node lp rp rec ow = (.ok (res', st1), evs') ∧
         (∀ e ∈ evs', ∃ ent, e = SyncEvent.progress ent false) ∧
         evs'.length = (destPaths node rp).length) := by
  refine ⟨fun hash st c c0 rp ow hsl hlk hck =>
    uploadFile_unchanged hash st c c0 rp ow hsl hlk hck, ?_⟩
  intro hash st0 node lp rp rec ow res st1 evs h hnd
  exact uploadPath_run2 node hash st0 st1 lp rp rec ow (res, st1) evs h
    (uploadPath_sync node hash st0 lp rp rec ow res st1 evs h hnd)

/-- Witness for `upload_idempotent` at concrete inputs: an unchanged
    single file is reported once as unchanged with no transfer, and the
    second run after a fresh upload leaves the store untouched. -/
theorem upload_idempotent_witness :
    (uploadFile (fun l => l) ⟨[(['/', 'f'], [1])]⟩ (.file [1]) ['/', 'f']
       false =
      (.ok (none, ⟨[(['/', 'f'], [1])]⟩),
       [.progress ⟨['/', 'f'], 1, [1]⟩ false])) ∧
    (∃ res' evs',
      uploadPath (fun l => l) ⟨[(['/', 'g'], [2])]⟩ (.file [2]) ['x']
        ['/', 'g'] false false =
        (.ok (res', ⟨[(['/', 'g'], [2])]⟩), evs') ∧
      (∀ e ∈ evs', ∃ ent, e = SyncEvent.progress ent false) ∧
      evs'.length = (destPaths (.file [2]) ['/', 'g']).length) := by
  constructor
  · exact upload_idempotent.1 (fun l => l) ⟨[(['/', 'f'], [1])]⟩ [1] [1]
      ['/', 'f'] false rfl rfl rfl
  · exact upload_idempotent.2 (fun l => l) ⟨[]⟩ (.file [2]) ['x'] ['/', 'g']
      false false [some ⟨['/', 'g'], 1, [2]⟩] ⟨[(['/', 'g'], [2])]⟩
      [.uploadTransfer ['/', 'g'], .progress ⟨['/', 'g'], 1, [2]⟩ true]
      rfl (by decide)

/-- C3: when the remote entry exists with a different checksum,
    `uploadFile` with `overwrite = false` fails with Overwrite-Required
    naming the remote path, issuing no transfer and no progress report;
    with `overwrite = true` it transfers, and the returned entry's
    checksum equals the digest of the local file's bytes. -/
theorem upload_overwrite_gate :
    (∀ (hash : List Nat → List Nat) (st : RemoteState) (c c0 : List Nat)
       (rp : Str),
       endsWithSlash rp = false →
       st.lookup rp = some c0 → hash c0 ≠ hash c →
       uploadFile hash st (.file c) rp false =
         (.error (.overwriteRequired rp), [])) ∧
    (∀ (hash : List Nat → List Nat) (st : RemoteState) (c c0 : List Nat)
       (rp : Str),
       endsWithSlash rp = false →
       st.lookup rp = some c0 → hash c0 ≠ hash c →
       uploadFile hash st (.file c) rp true =
         (.ok (some ⟨rp, c.length, hash c⟩, st.put rp c),
          [.uploadTransfer rp, .progress ⟨rp, c.length, hash c⟩ true])) :=
  ⟨fun hash st c c0 rp hsl hlk hck =>
    uploadFile_conflict_blocked hash st c c0 rp hsl hlk hck,
   fun hash st c c0 rp hsl hlk hck =>
    uploadFile_conflict_overwrites hash st c c0 rp hsl hlk hck⟩

/-- Witness for `upload_overwrite_gate` at concrete inputs. -/
theorem upload_overwrite_gate_witness :
    (uploadFile (fun l => l) ⟨[(['/', 'f'], [1])]⟩ (.file [2]) ['/', 'f']
       false = (.error (.overwriteRequired ['/', 'f']), [])) ∧
    (uploadFile (fun l => l) ⟨[(['/', 'f'], [1])]⟩ (.file [2]) ['/', 'f']
       true =
      (.ok (some ⟨['/', 'f'], 1, [2]⟩,
        RemoteState.put ⟨[(['/', 'f'], [1])]⟩ ['/', 'f'] [2]),
       [.uploadTransfer ['/', 'f'],
        .progress ⟨['/', 'f'], 1, [2]⟩ true])) := by
  constructor
  · exact upload_overwrite_gate.1 (fun l => l) ⟨[(['/', 'f'], [1])]⟩ [2] [1]
      ['/', 'f'] rfl rfl (by decide)
  · exact upload_overwrite_gate.2 (fun l => l) ⟨[(['/', 'f'], [1])]⟩ [2] [1]
      ['/', 'f'] rfl rfl (by decide)

/-- C4 counterexample: `uploadPath` over a single unchanged file returns
    `[undefined]` — the list has one element per visited file, but the
    element for the file reported as unchanged is not a `FileEntry`
    (the bare `return;` in `uploadFile`'s identical-file branch). -/
theorem uploadPath_unchanged_returns_undefined :
    uploadPath (fun l => l) ⟨[(['/', 'f'], [1])]⟩ (.file [1]) ['x']
      ['/', 'f'] false false =
      (.ok ([none], ⟨[(['/', 'f'], [1])]⟩),
       [.progress ⟨['/', 'f'], 1, [1]⟩ false]) := rfl

/-- C4 (amended): the list `uploadPath` returns has exactly one element
    per visited file (one per progress report), in traversal order:
    the resulting `FileEntry` for files reported as changed, and
    `undefined` — not an entry — for files reported as unchanged. -/
theorem uploadPath_result_list (hash : List Nat → List Nat)
    (st : RemoteState) (node : FSNode) (lp rp : Str) (rec ow : Bool)
    (res : List (Option SFileEntry)) (st' : RemoteState)
    (evs : List SyncEvent)
    (h : uploadPath hash st node lp rp rec ow = (.ok (res, st'), evs)) :
    res = evs.filterMap progressToResult :=
  uploadPath_resultList node hash st lp rp rec ow res st' evs h

/-- Witness for `uploadPath_result_list` at a concrete input. -/
theorem uploadPath_result_list_witness :
    ([none] : List (Option SFileEntry)) =
      ([SyncEvent.progress ⟨['/', 'f'], 1, [1]⟩ false]).filterMap
        progressToResult :=
  uploadPath_result_list (fun l => l) ⟨[(['/', 'f'], [1])]⟩ (.file [1])
    ['x'] ['/', 'f'] false false [none] ⟨[(['/', 'f'], [1])]⟩
    [.progress ⟨['/', 'f'], 1, [1]⟩ false] rfl

/-- Witness for `diffDirectories_container` at a concrete input: one
    local-only name, nothing remote, non-recursive. -/
theorem diffDirectories_container_witness :
    (diffDirectories (fun l => l) ['L']
       (some (.dir [(['a'], FSNode.file [1])])) ['R'] [] false =
      .ok (some (.node ⟨some ['L'], some ['R'], none⟩
        [.node ⟨some ['a'], none, some .onlyLocal⟩ []]))) ∧
    (∃ children,
      (Except.ok [] : Except JsError (List PathDifference)) =
        .ok children ∧
      ((some (Tree.node ⟨some ['L'], some ['R'], none⟩
          [.node ⟨some ['a'], none, some .onlyLocal⟩ []]) :
            Option PathDifference) = none ↔
        (([['a']] : List Str) = [] ∧ ([] : List Str) = [] ∧
         children = [])) ∧
      (∀ t, (some (Tree.node ⟨some ['L'], some ['R'], none⟩
          [.node ⟨some ['a'], none, some .onlyLocal⟩ []]) :
            Option PathDifference) = some t →
        t = .node ⟨some ['L'], some ['R'], none⟩
          (Tree.node ⟨some ['a'], none, some DifferenceType.onlyLocal⟩ []
            :: children))) := by
  have h : diffDirectories (fun l => l) ['L']
      (some (.dir [(['a'], FSNode.file [1])])) ['R'] [] false =
      .ok (some (.node ⟨some ['L'], some ['R'], none⟩
        [.node ⟨some ['a'], none, some .onlyLocal⟩ []])) := by
    rw [diffDirectories.eq_def]
    rfl
  exact ⟨h, diffDirectories_container (fun l => l) ['L']
    [(['a'], FSNode.file [1])] ['R'] [] false _ h⟩

/-- Witness for `hex_roundtrip` at concrete inputs. -/
theorem hex_roundtrip_witness :
    (hexToArray (arrayToHex [0, 255]) = some [0, 255]) ∧
    (∃ bs, hexToArray ['0', 'A', 'f', 'f'] = some bs ∧
      arrayToHex bs = (['0', 'A', 'f', 'f'] : Str).map toLowerHex) :=
  hex_roundtrip [0, 255] ['0', 'A', 'f', 'f'] (by decide) (by decide)
    (by decide) (by decide) (by decide)

/-- Witness for `upload_checksum_verified` at concrete inputs: an
    honest description is returned with the sent checksum; a tampered
    description fails Checksum-Mismatch. -/
theorem upload_checksum_verified_witness :
    ((⟨['p'], 1, [7]⟩ : SFileEntry) = ⟨['p'], 1, [7]⟩ ∧
     (⟨['p'], 1, [7]⟩ : SFileEntry).checksum =
       (none : Option (List Nat)).getD ((fun l => l) [7])) ∧
    (storageUploadWith (fun l => l) ['p'] [7] none ⟨['p'], 1, [9]⟩ =
      .error (.checksumMismatch ['p'])) := by
  constructor
  · exact upload_checksum_verified.1 (fun l => l) ['p'] [7] none
      ⟨['p'], 1, [7]⟩ ⟨['p'], 1, [7]⟩ rfl
  · exact upload_checksum_verified.2 (fun l => l) ['p'] [7] none
      ⟨['p'], 1, [9]⟩ rfl (by decide)

/-- Witness for `entry_invariant` at concrete inputs: a well-formed file
    entry satisfies the invariant, and a directory carrying a checksum
    is rejected. -/
theorem entry_invariant_witness :
    (((⟨BunnyType.file, ['/'], ['n'], 3, some [1]⟩ :
        AbstractBunnyEntry).checksum.isSome ↔
      (⟨BunnyType.file, ['/'], ['n'], 3, some [1]⟩ :
        AbstractBunnyEntry).type = BunnyType.file) ∧
     (⟨BunnyType.file, ['/'], ['n'], 3, some [1]⟩ :
        AbstractBunnyEntry).parentPath ≠ [] ∧
     endsWithSlash (⟨BunnyType.file, ['/'], ['n'], 3, some [1]⟩ :
        AbstractBunnyEntry).parentPath = true) ∧
    (∃ err, mkEntry BunnyType.dir ['/'] ['n'] 3 (some [1]) =
      .error err) := by
  constructor
  · exact entry_invariant.1 BunnyType.file ['/'] ['n'] 3 (some [1]) _ rfl
  · exact entry_invariant.2 BunnyType.dir ['/'] ['n'] 3 (some [1])
      (by decide)

/-- Witness for `loadPath_trailing_slash` at a concrete input. -/
theorem loadPath_trailing_slash_witness :
    ∃ e, loadPath (fun l => l) ⟨[]⟩ ['/', 'a', '/'] = .ok (.dir e) ∧
      e.type = BunnyType.dir ∧
      e.parentPath = cdDir ['/', 'a', '/'] ∧
      e.name = (posixParseDirBase ['/', 'a', '/']).2 ∧
      endsWithSlash e.parentPath = true ∧
      e.checksum = none :=
  loadPath_trailing_slash ['/', 'a', '/'] (by decide) (fun l => l) ⟨[]⟩

end Bunny
